import Mathlib

/-!
Verification of the gazelle JS language extension
(`gazelle/resolver.go`, `gazelle/js.go`).

The Go code is shallowly embedded: Go strings are Lean `String`s, and the
Go standard-library helpers the code calls (`strings.HasPrefix`,
`strings.Split`, `strings.TrimSuffix`, `path.Join`, `path.Clean`,
`path.Base`, `path.Ext`, `path.Dir`, `strings.ToLower`) are re-implemented
below on the character list underlying a `String`.  All paths and imports
handled by the code are slash-separated and the prefixes tested for are
ASCII, for which the byte-oriented Go functions and the character-oriented
embeddings agree.
-/

/-- Go `strings.HasPrefix s pre`. -/
def goHasPre (s pre : String) : Bool :=
  List.isPrefixOf pre.data s.data

/-- Go `strings.HasSuffix s suf`. -/
def goHasSuf (s suf : String) : Bool :=
  List.isSuffixOf suf.data s.data

/-- Go slice `s[n:]` for an ASCII-prefixed string: drop the first `n` characters. -/
def goDrop (s : String) (n : Nat) : String :=
  ⟨s.data.drop n⟩

/-- Split a character list on a separator character; Go `strings.Split` semantics
(the empty input yields one empty field). -/
def splitCharAux (c : Char) (acc : List Char) : List Char → List (List Char)
  | [] => [acc.reverse]
  | x :: xs => if x = c then acc.reverse :: splitCharAux c [] xs else splitCharAux c (x :: acc) xs

/-- Go `strings.Split s "/"`. -/
def goSplitSlash (s : String) : List String :=
  (splitCharAux '/' [] s.data).map (fun l => ⟨l⟩)

/-- Go `strings.TrimSuffix s suf`. -/
def trimSuffixStr (s suf : String) : String :=
  if goHasSuf s suf then ⟨s.data.take (s.data.length - suf.data.length)⟩ else s

/-- Join path elements with slashes (`strings.Join(elems, "/")`). -/
def joinSlash : List String → String
  | [] => ""
  | [s] => s
  | s :: s2 :: ss => s ++ "/" ++ joinSlash (s2 :: ss)

/-- One step of Go `path.Clean`: process one path element against the output
stack (held reversed).  Empty and `.` elements are dropped; `..` pops a
non-`..` element, is dropped at the root of a rooted path, and is kept
otherwise. -/
def cleanStep (rooted : Bool) (out : List String) (e : String) : List String :=
  if e = "" ∨ e = "." then out
  else if e = ".." then
    match out with
    | [] => if rooted then [] else [".."]
    | o :: os => if o = ".." then ".." :: o :: os else os
  else e :: out

/-- Go `path.Clean`. -/
def pathClean (p : String) : String :=
  let rooted := goHasPre p "/"
  let segs := goSplitSlash p
  let out := (segs.foldl (cleanStep rooted) []).reverse
  let joined := joinSlash out
  if rooted then (if joined = "" then "/" else "/" ++ joined)
  else (if joined = "" then "." else joined)

/-- Go `path.Join a b` (two-argument form): concatenate the non-empty
arguments with a slash and clean the result; all-empty input gives `""`. -/
def pathJoin (a b : String) : String :=
  if a = "" then (if b = "" then "" else pathClean b)
  else if b = "" then pathClean a
  else pathClean (a ++ "/" ++ b)

/-- Go `path.Base`. -/
def pathBase (p : String) : String :=
  if p = "" then "."
  else
    let cs := p.data.reverse.dropWhile (fun c => c = '/')
    if cs = [] then "/"
    else ⟨(cs.takeWhile (fun c => c ≠ '/')).reverse⟩

/-- Go `path.Ext` / `filepath.Ext`: the suffix of the final slash-separated
element beginning at its final dot, or `""` when that element has no dot.
The scan runs over the reversed character list. -/
def extRevAux (acc : List Char) : List Char → List Char
  | [] => []
  | c :: rest =>
    if c = '/' then []
    else if c = '.' then c :: acc
    else extRevAux (c :: acc) rest

/-- Go `path.Ext` / `filepath.Ext`. -/
def pathExt (p : String) : String :=
  ⟨extRevAux [] p.data.reverse⟩

/-- Go `path.Dir`: everything up to the final slash, cleaned. -/
def pathDir (p : String) : String :=
  pathClean ⟨(p.data.reverse.dropWhile (fun c => c ≠ '/')).reverse⟩

/-- Go `strings.ToLower` restricted to its ASCII action (the only case the
code exercises): uppercase ASCII letters are shifted down by 32. -/
def goCharToLower (c : Char) : Char :=
  if h : 65 ≤ c.toNat ∧ c.toNat ≤ 90 then
    Char.ofNatAux (c.toNat + 32) (Or.inl (by omega))
  else c

/-- Go `strings.ToLower` (ASCII action). -/
def goToLower (s : String) : String :=
  ⟨s.data.map goCharToLower⟩

/-- Byte-lexicographic string comparison, as used by Go `sort.Strings`
(on UTF-8 strings byte order and codepoint order agree). -/
def lexCharsLe : List Char → List Char → Bool
  | [], _ => true
  | _ :: _, [] => false
  | a :: as, b :: bs => if a < b then true else if a = b then lexCharsLe as bs else false

/-- `strLe a b` : `a` is at most `b` in the order of Go `sort.Strings`. -/
def strLe (a b : String) : Bool :=
  lexCharsLe a.data b.data

/-! ## Data model

`Label`, its `Rel` and `String` methods, `resolve.ImportSpec` and the rule
index interface come from the external bazel-gazelle library (an external
collaborator of this core). -/

/-- `resolve.ImportSpec`. -/
structure ImportSpec where
  lang : String
  imp : String
deriving DecidableEq, Repr

/-- Modelled from the spec: the external build-graph label type
(`label.Label` of bazel-gazelle): a target reference with a repository,
a package and a name, possibly relative. -/
structure Label where
  repo : String
  pkg : String
  name : String
  relative : Bool
deriving DecidableEq, Repr

/-- `label.NoLabel`. -/
def Label.noLabel : Label := ⟨"", "", "", false⟩

/-- Modelled from the spec: `label.Label.Rel` — the reference label adjusted
to be relative to the origin's containing scope (repo and package). -/
def Label.rel (l : Label) (repo pkg : String) : Label :=
  if l.relative ∨ l.repo ≠ repo then l
  else if l.pkg = pkg then ⟨"", "", l.name, true⟩
  else ⟨"", l.pkg, l.name, false⟩

/-- Modelled from the spec: `label.Label.String` — the textual form of a
label (`:name`, `//pkg`, `@repo//pkg:name`). -/
def Label.render (l : Label) : String :=
  if l.relative then ":" ++ l.name
  else
    let repoPart := if l.repo = "" then "" else "@" ++ l.repo
    if pathBase l.pkg = l.name then repoPart ++ "//" ++ l.pkg
    else repoPart ++ "//" ++ l.pkg ++ ":" ++ l.name

/-- One match returned by the rule index: its label and the
`IsSelfImport` predicate against an origin label. -/
structure IndexEntry where
  label : Label
  isSelfImport : Label → Bool

/-- The external rule index: `FindRulesByImport` takes an import spec and a
language name and returns the matching entries. -/
def RuleIndex : Type :=
  ImportSpec → String → List IndexEntry

/-- `ix.FindRulesByImport(spec, lang)`. -/
def findRulesByImport (ix : RuleIndex) (spec : ImportSpec) (lang : String) : List IndexEntry :=
  ix spec lang

/-! ## resolver.go -/

/-- The error results of `resolveWithIndex`: `skipImportError`,
`notFoundError`, and the `fmt.Errorf` ambiguity error (which records the
first two matching labels, the import and the origin). -/
inductive ResolveErr where
  | skipImport : ResolveErr
  | notFound : ResolveErr
  | ambiguous : Label → Label → String → Label → ResolveErr
deriving DecidableEq, Repr

/-- `resolveWithIndex` (resolver.go): look the canonical import up in the
index under language `"js"`; no match is `notFoundError`, several matches
are the ambiguity error, a unique self-import match is `skipImportError`,
and otherwise the unique match's label is returned. -/
def resolveWithIndex (ix : RuleIndex) (imp : String) (frm : Label) : Except ResolveErr Label :=
  match findRulesByImport ix { lang := "js", imp := imp } "js" with
  | [] => .error .notFound
  | [m] => if m.isSelfImport frm then .error .skipImport else .ok m.label
  | m1 :: m2 :: _ => .error (.ambiguous m1.label m2.label imp frm)

/-- The loop of `findJsConfig` (resolver.go), made total with a fuel
parameter: `none` models the Go loop still running (it does not terminate
for package paths that never reach the `".."` sentinel).  Each iteration
checks the sentinel, tries `join(pkgDir, configName + ".config")` against
the index and otherwise moves to `join(pkgDir, "..")`. -/
def findJsConfigFuel (ix : RuleIndex) (configName : String) (frm : Label) :
    Nat → String → Option (Except ResolveErr Label)
  | 0, _ => none
  | n + 1, pkgDir =>
    if pkgDir = ".." then some (.error .notFound)
    else
      match resolveWithIndex ix (pathJoin pkgDir (configName ++ ".config")) frm with
      | .ok l => some (.ok l)
      | .error _ => findJsConfigFuel ix configName frm n (pathJoin pkgDir "..")

/-- Fuel that suffices for every clean repository-relative origin package:
one iteration per path segment, one for the `"."` stage and one for the
`".."` sentinel stage. -/
def configSearchFuel (pkg : String) : Nat :=
  (goSplitSlash pkg).length + 2

/-- `findJsConfig` (resolver.go): upward search from `from.Pkg` for a
`configName + ".config"` target; reaching the `".."` sentinel yields
`notFoundError` (`label.NoLabel` is dropped in this embedding: the error
case carries no label). -/
def findJsConfig (configName : String) (ix : RuleIndex) (frm : Label) : Except ResolveErr Label :=
  match findJsConfigFuel ix configName frm (configSearchFuel frm.pkg) frm.pkg with
  | some r => r
  | none => .error .notFound

/-- `isNpmDependency` (resolver.go). -/
def isNpmDependency (imp : String) : Bool :=
  let isSourceDep := goHasPre imp "./" || goHasPre imp "/" || goHasPre imp "../" ||
    goHasPre imp "~/" || goHasPre imp "@/" || goHasPre imp "~~/"
  !isSourceDep

/-- `normaliseImports` (resolver.go): alias and relative-import rewriting.
The Go function is a sequence of early-returning prefix tests; the `~/`
branch falls through to the final `return imp` when neither a `nuxt` nor a
`vue` config is found, since a `~/` import matches neither `../` nor
`./`. -/
def normaliseImports (imp : String) (ix : RuleIndex) (frm : Label) : String :=
  let pkgDir := frm.pkg
  if goHasPre imp "@/" then goDrop imp 2
  else if goHasPre imp "~~/" then goDrop imp 3
  else if goHasPre imp "~/" then
    match findJsConfig "nuxt" ix frm with
    | .ok l => pathJoin (pathDir ((l.rel frm.repo frm.pkg).render)) imp
    | .error _ =>
      match findJsConfig "vue" ix frm with
      | .ok l => pathJoin (pathJoin (pathDir ((l.rel frm.repo frm.pkg).render)) "src") imp
      | .error _ => imp
  else if goHasPre imp "../" then pathJoin pkgDir imp
  else if goHasPre imp "./" then pathJoin pkgDir imp
  else imp

/-- The npm package-name derivation inside `Resolve` (resolver.go):
`s := strings.Split(imp, "/"); imp = s[0]; if HasPrefix(imp, "@") { imp += "/" + s[1] }`.
The `s[1]` access panics when the split has a single element; that panic is
modelled by `none`. -/
def npmName (imp : String) : Option String :=
  match goSplitSlash imp with
  | [] => none
  | s0 :: rest =>
    if goHasPre s0 "@" then
      match rest with
      | [] => none
      | s1 :: _ => some (s0 ++ "/" ++ s1)
    else some s0

/-- The npm dependency identifier added to the dependency set:
`"@npm//" + name`. -/
def npmDep (imp : String) : Option String :=
  (npmName imp).map (fun nm => "@npm//" ++ nm)

/-! ## Rules and attributes (the slice of `rule.Rule` the code touches) -/

/-- An attribute value: a string list (`srcs`, `deps`, `visibility`), a
plain string (`config`), or any other expression kind (`other`, which
`AttrStrings` cannot read). -/
inductive Attr where
  | strList : List String → Attr
  | str : String → Attr
  | other : Attr
deriving DecidableEq, Repr

/-- The slice of `rule.Rule` used by the code: a kind, a name and an
attribute map. -/
structure Rule where
  kind : String
  name : String
  attrs : List (String × Attr)
deriving DecidableEq, Repr

/-- `rule.NewRule(kind, name)`. -/
def Rule.new (kind name : String) : Rule :=
  ⟨kind, name, []⟩

/-- `r.Attr(key)`: the attribute value, or `none` when absent. -/
def Rule.attr (r : Rule) (key : String) : Option Attr :=
  (r.attrs.find? (fun p => p.1 = key)).map (fun p => p.2)

/-- `r.AttrStrings(key)`: the strings of a string-list attribute; a missing
or non-string-list attribute reads as the empty list. -/
def Rule.attrStrings (r : Rule) (key : String) : List String :=
  match r.attr key with
  | some (.strList l) => l
  | _ => []

/-- `r.DelAttr(key)`. -/
def Rule.delAttr (r : Rule) (key : String) : Rule :=
  { r with attrs := r.attrs.filter (fun p => p.1 ≠ key) }

/-- `r.SetAttr(key, value)`: replace any previous binding of `key`. -/
def Rule.setAttr (r : Rule) (key : String) (v : Attr) : Rule :=
  { r with attrs := (r.attrs.filter (fun p => p.1 ≠ key)) ++ [(key, v)] }

/-! ## The per-import step of `Resolve` -/

/-- What the body of the import loop in `Resolve` (resolver.go) does with
one raw import. -/
inductive ImportAction where
  | skipped : ImportAction
  | resolved : String → ImportAction
  | npmDependency : String → ImportAction
  | importNotFoundLogged : ImportAction
  | errorLogged : ImportAction
  | panicked : ImportAction
deriving DecidableEq, Repr

/-- One iteration of the import loop of `Resolve` (resolver.go): normalise
the raw import, resolve it against the index, and on `notFoundError` run
the npm-package heuristic; `panicked` is the out-of-range `s[1]` access
inside the npm-name derivation. -/
def processImport (ix : RuleIndex) (frm : Label) (imp0 : String) : ImportAction :=
  let imp := normaliseImports imp0 ix frm
  match resolveWithIndex ix imp frm with
  | .error .skipImport => .skipped
  | .error .notFound =>
    if isNpmDependency imp then
      match npmDep imp with
      | some d => .npmDependency d
      | none => .panicked
    else .importNotFoundLogged
  | .error (.ambiguous _ _ _ _) => .errorLogged
  | .ok l => .resolved ((l.rel frm.repo frm.pkg).render)

/-- The dependency-set entry an action contributes, if any. -/
def depOfAction : ImportAction → Option String
  | .resolved d => some d
  | .npmDependency d => some d
  | _ => none

/-- Whether an action writes an operator-visible diagnostic
(`log.Printf` for a not-found import, `log.Print` for the ambiguity
error). -/
def emitsDiagnostic : ImportAction → Bool
  | .importNotFoundLogged => true
  | .errorLogged => true
  | _ => false

/-- Whether the action's branch consulted the external-package classifier
`isNpmDependency` (only the `notFoundError` branch does). -/
def classifierConsulted : ImportAction → Bool
  | .npmDependency _ => true
  | .importNotFoundLogged => true
  | .panicked => true
  | _ => false

/-- Insertion into the `depSet` map: a set of strings, represented as a
duplicate-free list. -/
def insertDep (ds : List String) (d : String) : List String :=
  if d ∈ ds then ds else ds ++ [d]

/-- One fold step of the import loop of `Resolve` (resolver.go) over the
`depSet` accumulator; `none` models a panic escaping the loop. -/
def depStep (ix : RuleIndex) (frm : Label) (acc : Option (List String)) (imp : String) :
    Option (List String) :=
  acc.bind (fun ds =>
    match processImport ix frm imp with
    | .panicked => none
    | a =>
      match depOfAction a with
      | some d => some (insertDep ds d)
      | none => some ds)

/-- The import loop of `Resolve` (resolver.go) accumulating the `depSet`
keys. -/
def collectDeps (ix : RuleIndex) (frm : Label) (imports : List String) : Option (List String) :=
  imports.foldl (depStep ix frm) (some [])

/-- Go `sort.Strings`. -/
def sortStrings (l : List String) : List String :=
  List.insertionSort (fun a b => strLe a b = true) l

/-- The `len(depSet) > 0` block of `Resolve` (resolver.go): set the sorted
dependency list as `deps` when the set is non-empty. -/
def setDeps (r1 : Rule) (depList : List String) : Rule :=
  if depList.length > 0 then r1.setAttr "deps" (.strList (sortStrings depList)) else r1

/-- The `jest_node_test` block of `Resolve` (resolver.go): for a rule of
that kind, set `config` to the located jest config; the config-not-found
case only logs and leaves the rule unchanged. -/
def setJestConfig (ix : RuleIndex) (frm : Label) (r2 : Rule) : Rule :=
  if r2.kind = "jest_node_test" then
    match findJsConfig "jest" ix frm with
    | .ok l => r2.setAttr "config" (.str ((l.rel frm.repo frm.pkg).render))
    | .error _ => r2
  else r2

/-- `Resolve` (resolver.go): delete any previous `deps`, run every raw
source dependency through normalisation, index resolution and the npm
heuristic, set `deps` to the sorted dependency set when non-empty, then apply
the `jest_node_test` config step.  `none` models the panic inside the
npm-name derivation. -/
def Resolve (ix : RuleIndex) (r : Rule) (imports : List String) (frm : Label) : Option Rule :=
  match collectDeps ix frm imports with
  | none => none
  | some depList => some (setJestConfig ix frm (setDeps (r.delAttr "deps") depList))

/-- `Imports` (resolver.go): the index keys a rule is registered under —
for each `srcs` entry, the lower-cased join of the package path and the
extension-stripped source path, under language `"js"`. -/
def Imports (pkg : String) (srcs : List String) : List ImportSpec :=
  srcs.map (fun src =>
    { lang := "js", imp := goToLower (pathJoin pkg (trimSuffixStr src (pathExt src))) })

/-! ## js.go — target classification and stale-target pruning -/

/-- Modelled from the spec: the per-run configuration read through
`GetJsConfig` (its definition is outside the provided sources) — the
configurable import-only extension set (`JsImportExtenstions`, spelling as
in the source), the test-generation flag (`GenerateTests`) and the name of
the generic library kind (`JsLibrary.String()`). -/
structure JsConfig where
  jsImportExtenstions : List String
  generateTests : Bool
  jsLibrary : String

/-- `trimExt` (js.go): an underscore followed by the file's extension with
its dots removed; used as a disambiguating name suffix. -/
def trimExt (filename : String) : String :=
  "_" ++ ⟨(pathExt filename).data.filter (fun c => c ≠ '.')⟩

/-- `containsSuffix` (js.go). -/
def containsSuffix (suffixes : List String) (x : String) : Bool :=
  suffixes.any (fun suffix => goHasSuf x suffix)

/-- The slice of `rule.File` used by `generateEmpty`: the previously
declared rules of the directory's build file. -/
structure RuleFile where
  rules : List Rule
deriving DecidableEq, Repr

/-- `generateEmpty` (js.go): among the previously declared rules of the
known kinds, flag those none of whose declared `srcs` strings is a newly
known file; a rule whose `srcs` attribute exists but is not a string list
is left alone. -/
def generateEmpty (f : Option RuleFile) (files : List String) (knownRuleKinds : List String) : List Rule :=
  match f with
  | none => []
  | some file =>
    file.rules.filterMap (fun r =>
      if ¬ (knownRuleKinds.contains r.kind) then none
      else if r.attrStrings "srcs" = [] ∧ r.attr "srcs" ≠ none then none
      else if (r.attrStrings "srcs").any (fun src => files.contains src) then none
      else some (Rule.new r.kind r.name))

/-- The arguments of `GenerateRules` that the function reads: the
directory's relative path, its static and generated files, and the existing
build file (if any). -/
structure GenerateArgs where
  rel : String
  regularFiles : List String
  genFiles : List String
  file : Option RuleFile

/-- The outputs of `GenerateRules`: generated rules, the parallel raw
dependency lists, and the candidate-for-deletion (stale) rules. -/
structure GenerateResult where
  gen : List Rule
  imports : List (List String)
  empty : List Rule
deriving Repr

/-- The loop accumulator of `GenerateRules` (js.go). -/
structure GenAcc where
  rules : List Rule
  imports : List (List String)
  jsFiles : List String
  jsImportFiles : List String

/-- The body of the file loop of `GenerateRules` (js.go) for one file:
an import-only extension yields a `js_import` passthrough rule; a file that
is not a recognised JS/TS file, or matches the `k6.js` / `e2e.test.js` /
disabled-`.test.js` exclusions, is diverted to the `js_import` file list;
otherwise the file's imports are collected (`analyze` stands for the
external `jsFileinfo` collaborator) and the file is classified into
`jest_test` (`.test.js` or `test.ts`), `ts_project` (`.ts` / `.tsx`) or the
configured library kind. -/
def generateFileStep (cfg : JsConfig) (analyze : String → List String) (acc : GenAcc) (f : String) : GenAcc :=
  let baseF := pathBase f
  let pfx := trimExt baseF
  let stem := trimSuffixStr baseF (pathExt baseF)
  let acc :=
    if containsSuffix cfg.jsImportExtenstions f then
      let r := ((Rule.new "js_import" (stem ++ pfx)).setAttr "srcs" (.strList [f])).setAttr
        "visibility" (.strList ["//visibility:public"])
      { acc with rules := acc.rules ++ [r], imports := acc.imports ++ [[]] }
    else acc
  if (¬ (goHasSuf f ".vue" ∨ goHasSuf f ".js" ∨ goHasSuf f ".jsx" ∨ goHasSuf f ".tsx" ∨ goHasSuf f ".ts")) ∨
      goHasSuf f "k6.js" ∨ goHasSuf f "e2e.test.js" ∨ (¬ cfg.generateTests ∧ goHasSuf f ".test.js") then
    { acc with jsImportFiles := acc.jsImportFiles ++ [f] }
  else
    let acc := { acc with imports := acc.imports ++ [analyze f], jsFiles := acc.jsFiles ++ [f] }
    if goHasSuf f ".test.js" then
      let r := (Rule.new "jest_test" stem).setAttr "srcs" (.strList [f])
      { acc with rules := acc.rules ++ [r] }
    else if goHasSuf f "test.ts" then
      let r := (Rule.new "jest_test" stem).setAttr "srcs" (.strList [f])
      { acc with rules := acc.rules ++ [r] }
    else if goHasSuf f ".ts" then
      let r := ((Rule.new "ts_project" stem).setAttr "srcs" (.strList [f])).setAttr
        "visibility" (.strList ["//visibility:public"])
      { acc with rules := acc.rules ++ [r] }
    else if goHasSuf f ".tsx" then
      let r := ((Rule.new "ts_project" stem).setAttr "srcs" (.strList [f])).setAttr
        "visibility" (.strList ["//visibility:public"])
      { acc with rules := acc.rules ++ [r] }
    else
      let r := ((Rule.new cfg.jsLibrary stem).setAttr "srcs" (.strList [f])).setAttr
        "visibility" (.strList ["//visibility:public"])
      { acc with rules := acc.rules ++ [r] }

/-- `GenerateRules` (js.go): fold the file-classification step over the
static and generated files, then flag stale rules of the recognised kinds
(`generateEmpty` against kinds `{JsLibrary, "jest_test", "ts_library"}`,
and against `{"js_import"}` when import-only extensions are configured).
The function's initial `path.Base(args.Rel)` / `"root"` computation only
seeds a variable every loop iteration overwrites, so it does not reach the
output. -/
def generateRules (cfg : JsConfig) (analyze : String → List String) (args : GenerateArgs) : GenerateResult :=
  let acc := (args.regularFiles ++ args.genFiles).foldl (generateFileStep cfg analyze)
    ⟨[], [], [], []⟩
  let empty := generateEmpty args.file acc.jsFiles [cfg.jsLibrary, "jest_test", "ts_library"]
  let empty := empty ++
    (if cfg.jsImportExtenstions.length > 0 then
      generateEmpty args.file acc.jsImportFiles ["js_import"]
    else [])
  { gen := acc.rules, imports := acc.imports, empty := empty }

/-! ## Lemmas: prefixes, splitting and joining -/

theorem isPrefixOf_cons_unfold (a : Char) (as l : List Char) :
    List.isPrefixOf (a :: as) l =
      match l with
      | [] => false
      | b :: bs => a == b && List.isPrefixOf as bs := by
  cases l <;> rfl

theorem goHasPre_head {s : String} {c : Char} {cs : List Char}
    (h : goHasPre s ⟨c :: cs⟩ = true) : ∃ t, s.data = c :: t := by
  unfold goHasPre at h
  rcases hd : s.data with _ | ⟨b, bs⟩
  · rw [hd, isPrefixOf_cons_unfold] at h
    simp at h
  · rw [hd, isPrefixOf_cons_unfold] at h
    simp only [Bool.and_eq_true, beq_iff_eq] at h
    exact ⟨bs, by simp [hd, h.1]⟩

theorem goHasPre_false_of_head {s : String} {c c' : Char} {t cs' : List Char}
    (hd : s.data = c :: t) (hne : c' ≠ c) : goHasPre s ⟨c' :: cs'⟩ = false := by
  unfold goHasPre
  rw [hd, isPrefixOf_cons_unfold]
  simp [hne]

theorem splitCharAux_sep_cons (c : Char) (acc xs : List Char) :
    splitCharAux c acc (c :: xs) = acc.reverse :: splitCharAux c [] xs := by
  simp [splitCharAux]

theorem splitCharAux_nosep_cons {c x : Char} (h : x ≠ c) (acc xs : List Char) :
    splitCharAux c acc (x :: xs) = splitCharAux c (x :: acc) xs := by
  simp [splitCharAux, h]

theorem joinSlash_cons_cons (s r : String) (t : List String) :
    joinSlash (s :: r :: t) = s ++ "/" ++ joinSlash (r :: t) := rfl

theorem splitCharAux_ne_nil (c : Char) (acc l : List Char) : splitCharAux c acc l ≠ [] := by
  induction l generalizing acc with
  | nil => simp [splitCharAux]
  | cons x xs ih =>
    unfold splitCharAux
    by_cases hx : x = c <;> simp [hx, ih]

theorem splitCharAux_append_sep (c : Char) (ys : List Char) :
    ∀ (xs acc : List Char),
      splitCharAux c acc (xs ++ c :: ys) = splitCharAux c acc xs ++ splitCharAux c [] ys := by
  intro xs
  induction xs with
  | nil => intro acc; simp [splitCharAux]
  | cons x xs ih =>
    intro acc
    by_cases hx : x = c <;> simp [splitCharAux, hx, ih]

theorem splitCharAux_no_sep (c : Char) :
    ∀ (l acc : List Char), c ∉ l → splitCharAux c acc l = [acc.reverse ++ l] := by
  intro l
  induction l with
  | nil => intro acc _; simp [splitCharAux]
  | cons x xs ih =>
    intro acc hmem
    have hx : x ≠ c := fun h => hmem (h ▸ List.mem_cons_self x xs)
    have hxs : c ∉ xs := fun h => hmem (List.mem_cons_of_mem x h)
    simp [splitCharAux, hx, ih (x :: acc) hxs]

theorem not_mem_of_mem_splitCharAux (c : Char) :
    ∀ (l acc f : List Char), c ∉ acc → f ∈ splitCharAux c acc l → c ∉ f := by
  intro l
  induction l with
  | nil =>
    intro acc f hacc hf
    simp [splitCharAux] at hf
    subst hf
    simpa using hacc
  | cons x xs ih =>
    intro acc f hacc hf
    by_cases hx : x = c
    · simp [splitCharAux, hx] at hf
      rcases hf with hf | hf
      · subst hf; simpa using hacc
      · exact ih [] f (by simp) hf
    · simp [splitCharAux, hx] at hf
      refine ih (x :: acc) f ?_ hf
      intro hmem
      rcases List.mem_cons.mp hmem with h | h
      · exact hx h.symm
      · exact hacc h

theorem goSplitSlash_not_mem_slash (p : String) :
    ∀ f ∈ goSplitSlash p, '/' ∉ f.data := by
  intro f hf
  unfold goSplitSlash at hf
  rcases List.mem_map.mp hf with ⟨l, hl, hfl⟩
  subst hfl
  exact not_mem_of_mem_splitCharAux '/' p.data [] l (by simp) hl

theorem string_mk_data (s : String) : (⟨s.data⟩ : String) = s := rfl

theorem string_append_mk (a b : List Char) : (⟨a⟩ : String) ++ ⟨b⟩ = ⟨a ++ b⟩ := rfl

theorem joinSlash_splitCharAux :
    ∀ (l acc : List Char),
      joinSlash ((splitCharAux '/' acc l).map (fun f => (⟨f⟩ : String))) = ⟨acc.reverse ++ l⟩ := by
  intro l
  induction l with
  | nil => intro acc; simp [splitCharAux, joinSlash]
  | cons x xs ih =>
    intro acc
    by_cases hx : x = '/'
    · subst hx
      rcases hsh : (splitCharAux '/' ([] : List Char) xs).map (fun f => (⟨f⟩ : String)) with _ | ⟨r, t⟩
      · exact absurd (List.map_eq_nil_iff.mp hsh) (splitCharAux_ne_nil '/' [] xs)
      · have hrec := ih []
        rw [hsh] at hrec
        rw [splitCharAux_sep_cons, List.map_cons, hsh, joinSlash_cons_cons, hrec]
        show (⟨acc.reverse⟩ : String) ++ ⟨['/']⟩ ++ ⟨[].reverse ++ xs⟩ = _
        rw [string_append_mk, string_append_mk]
        simp
    · have hrec := ih (x :: acc)
      rw [splitCharAux_nosep_cons hx, hrec]
      simp

theorem joinSlash_goSplitSlash (p : String) : joinSlash (goSplitSlash p) = p := by
  have h := joinSlash_splitCharAux p.data []
  unfold goSplitSlash
  simpa using h

theorem goSplitSlash_no_sep {s : String} (h : '/' ∉ s.data) : goSplitSlash s = [s] := by
  unfold goSplitSlash
  rw [splitCharAux_no_sep '/' s.data [] h]
  simp

theorem goSplitSlash_joinSlash :
    ∀ (segs : List String), segs ≠ [] → (∀ s ∈ segs, '/' ∉ s.data) →
      goSplitSlash (joinSlash segs) = segs := by
  intro segs
  induction segs with
  | nil => intro h; exact absurd rfl h
  | cons s rest ih =>
    intro _ hg
    rcases rest with _ | ⟨s2, ss⟩
    · exact goSplitSlash_no_sep (hg s (List.mem_cons_self s _))
    · have hdata : (joinSlash (s :: s2 :: ss)).data =
          s.data ++ '/' :: (joinSlash (s2 :: ss)).data := by
        show (s ++ "/" ++ joinSlash (s2 :: ss)).data = _
        rw [String.data_append, String.data_append]
        simp
      unfold goSplitSlash
      rw [hdata, splitCharAux_append_sep]
      rw [splitCharAux_no_sep '/' s.data [] (hg s (List.mem_cons_self s _))]
      have hrest := ih (by simp) (fun t ht => hg t (List.mem_cons_of_mem s ht))
      unfold goSplitSlash at hrest
      simp only [List.map_append, List.map_cons, List.map_nil, List.reverse_nil,
        List.nil_append, string_mk_data, hrest]
      rfl

/-! ## Lemmas: upward directory stepping and Config Locator termination -/

/-- A well-formed path segment of a clean repository-relative package path. -/
def goodSeg (s : String) : Prop :=
  s ≠ "" ∧ s ≠ "." ∧ s ≠ ".." ∧ '/' ∉ s.data

/-- The segments of a clean repository-relative package path (decidable
form): no empty, `"."` or `".."` segment. -/
def goodPkg (p : String) : Bool :=
  (goSplitSlash p).all (fun s => !(s = "" || s = "." || s = ".."))

theorem goodPkg_goodSeg {p : String} (h : goodPkg p = true) :
    ∀ s ∈ goSplitSlash p, goodSeg s := by
  intro s hs
  have hall := (List.all_eq_true.mp h) s hs
  simp only [Bool.not_eq_true', Bool.or_eq_false_iff, decide_eq_false_iff_not] at hall
  exact ⟨hall.1.1, hall.1.2, hall.2, fun hc => goSplitSlash_not_mem_slash p s hs hc⟩

theorem foldl_cleanStep_good (rooted : Bool) :
    ∀ (segs : List String) (out : List String),
      (∀ s ∈ segs, s ≠ "" ∧ s ≠ "." ∧ s ≠ "..") →
      List.foldl (cleanStep rooted) out segs = segs.reverse ++ out := by
  intro segs
  induction segs with
  | nil => intro out _; simp
  | cons s rest ih =>
    intro out hg
    have hs := hg s (List.mem_cons_self s rest)
    have hstep : cleanStep rooted out s = s :: out := by
      simp [cleanStep, hs.1, hs.2.1, hs.2.2]
    rw [List.foldl_cons, hstep, ih (s :: out) (fun t ht => hg t (List.mem_cons_of_mem s ht))]
    simp

theorem str_data_of_ne_empty {s : String} (h : s ≠ "") : ∃ c cs, s.data = c :: cs := by
  rcases hd : s.data with _ | ⟨c, cs⟩
  · exact absurd (by rw [← string_mk_data s, hd]) h
  · exact ⟨c, cs, rfl⟩

theorem joinSlash_cons_data (s : String) (rest : List String) :
    ∃ t, (joinSlash (s :: rest)).data = s.data ++ t := by
  rcases rest with _ | ⟨s2, ss⟩
  · exact ⟨[], by simp [joinSlash]⟩
  · refine ⟨'/' :: (joinSlash (s2 :: ss)).data, ?_⟩
    rw [joinSlash_cons_cons, String.data_append, String.data_append]
    simp

theorem joinSlash_ne_of_splits {segs : List String} {q : String}
    (hne : segs ≠ []) (hsl : ∀ s ∈ segs, '/' ∉ s.data)
    (hq : goSplitSlash q ≠ segs) : joinSlash segs ≠ q := by
  intro h
  exact hq (by rw [← h, goSplitSlash_joinSlash segs hne hsl])

theorem joinSlash_good_ne_empty {segs : List String}
    (hne : segs ≠ []) (hg : ∀ s ∈ segs, goodSeg s) : joinSlash segs ≠ "" := by
  refine joinSlash_ne_of_splits hne (fun s hs => (hg s hs).2.2.2) ?_
  intro h
  have : ("" : String) ∈ segs := by
    rw [← h]; show ("" : String) ∈ [""]; simp
  exact (hg _ this).1 rfl

theorem joinSlash_good_ne_dotdot {segs : List String}
    (hne : segs ≠ []) (hg : ∀ s ∈ segs, goodSeg s) : joinSlash segs ≠ ".." := by
  refine joinSlash_ne_of_splits hne (fun s hs => (hg s hs).2.2.2) ?_
  intro h
  have : (".." : String) ∈ segs := by
    rw [← h]; show (".." : String) ∈ [".."]; simp
  exact (hg _ this).2.2.1 rfl

theorem pathJoin_up (L : List String) (a : String)
    (hg : ∀ s ∈ L ++ [a], goodSeg s) :
    pathJoin (joinSlash (L ++ [a])) ".." = if L = [] then "." else joinSlash L := by
  have hslash : ∀ s ∈ L ++ [a], '/' ∉ s.data := fun s hs => (hg s hs).2.2.2
  have hsplitp : goSplitSlash (joinSlash (L ++ [a])) = L ++ [a] :=
    goSplitSlash_joinSlash (L ++ [a]) (by simp) hslash
  have hpne : joinSlash (L ++ [a]) ≠ "" := joinSlash_good_ne_empty (by simp) hg
  obtain ⟨s, rest, hcons⟩ : ∃ s rest, L ++ [a] = s :: rest := by
    rcases L with _ | ⟨x, xs⟩
    · exact ⟨a, [], rfl⟩
    · exact ⟨x, xs ++ [a], rfl⟩
  obtain ⟨t, hpd⟩ := joinSlash_cons_data s rest
  rw [← hcons] at hpd
  obtain ⟨c, cs, hsd⟩ := str_data_of_ne_empty (hg s (by rw [hcons]; exact List.mem_cons_self s rest)).1
  have hcslash : c ≠ '/' := by
    intro h
    exact (hg s (by rw [hcons]; exact List.mem_cons_self s rest)).2.2.2 (by rw [hsd, h]; simp)
  have hqdata : (joinSlash (L ++ [a]) ++ "/" ++ "..").data =
      (joinSlash (L ++ [a])).data ++ '/' :: ['.', '.'] := by
    rw [String.data_append, String.data_append]
    rw [show ("/" : String).data = ['/'] from rfl, show (".." : String).data = ['.', '.'] from rfl]
    simp
  have hqhead : (joinSlash (L ++ [a]) ++ "/" ++ "..").data = c :: (cs ++ t ++ '/' :: ['.', '.']) := by
    rw [hqdata, hpd, hsd]
    simp
  have hrooted : goHasPre (joinSlash (L ++ [a]) ++ "/" ++ "..") "/" = false := by
    have h := @goHasPre_false_of_head _ _ '/' _ [] hqhead (fun h => hcslash h.symm)
    exact h
  have hsplitq : goSplitSlash (joinSlash (L ++ [a]) ++ "/" ++ "..") = (L ++ [a]) ++ [".."] := by
    unfold goSplitSlash
    rw [hqdata, splitCharAux_append_sep, List.map_append]
    have h1 : (splitCharAux '/' [] (joinSlash (L ++ [a])).data).map
        (fun l => (⟨l⟩ : String)) = L ++ [a] := hsplitp
    rw [h1]
    rfl
  have hfold : List.foldl (cleanStep false) [] ((L ++ [a]) ++ [".."]) = L.reverse := by
    rw [List.foldl_append]
    rw [foldl_cleanStep_good false (L ++ [a]) []
      (fun s hs => ⟨(hg s hs).1, (hg s hs).2.1, (hg s hs).2.2.1⟩)]
    have ha : a ≠ ".." := (hg a (by simp)).2.2.1
    simp only [List.foldl_cons, List.foldl_nil, List.append_nil, List.reverse_append,
      List.reverse_cons, List.reverse_nil, List.nil_append, List.singleton_append]
    unfold cleanStep
    rw [if_neg (by decide), if_pos rfl]
    simp [ha]
  rw [pathJoin, if_neg hpne, if_neg (by decide)]
  rw [pathClean]
  simp only [hrooted, hsplitq, hfold, Bool.false_eq_true, if_false]
  rw [List.reverse_reverse]
  rcases L with _ | ⟨x, xs⟩
  · simp [joinSlash]
  · have hgood : ∀ s ∈ x :: xs, goodSeg s := fun s hs => hg s (List.mem_append_left _ hs)
    rw [if_neg (joinSlash_good_ne_empty (by simp) hgood), if_neg (by simp)]

theorem resolveWithIndex_empty {ix : RuleIndex} (hix : ∀ s l, ix s l = [])
    (imp : String) (frm : Label) : resolveWithIndex ix imp frm = .error .notFound := by
  unfold resolveWithIndex findRulesByImport
  rw [hix]

theorem findJsConfigFuel_notFound {ix : RuleIndex} (hix : ∀ s l, ix s l = [])
    (nm : String) (frm : Label) :
    ∀ (n : Nat) (segs : List String), (∀ s ∈ segs, goodSeg s) → segs.length = n →
      findJsConfigFuel ix nm frm (n + 2) (joinSlash segs) = some (.error .notFound) := by
  intro n
  induction n with
  | zero =>
    intro segs hg hlen
    have hnil : segs = [] := List.length_eq_zero.mp hlen
    subst hnil
    show findJsConfigFuel ix nm frm 2 "" = some (.error .notFound)
    unfold findJsConfigFuel
    rw [if_neg (by decide), resolveWithIndex_empty hix]
    show findJsConfigFuel ix nm frm 1 (pathJoin "" "..") = some (.error .notFound)
    rw [show pathJoin "" ".." = ".." from rfl]
    unfold findJsConfigFuel
    rw [if_pos rfl]
  | succ n ih =>
    intro segs hg hlen
    rcases List.eq_nil_or_concat segs with hnil | ⟨L, a, hLa⟩
    · rw [hnil] at hlen; simp at hlen
    rw [List.concat_eq_append] at hLa
    subst hLa
    have hne : joinSlash (L ++ [a]) ≠ ".." := joinSlash_good_ne_dotdot (by simp) hg
    unfold findJsConfigFuel
    rw [if_neg hne, resolveWithIndex_empty hix]
    show findJsConfigFuel ix nm frm (n + 2) (pathJoin (joinSlash (L ++ [a])) "..") =
      some (.error .notFound)
    rw [pathJoin_up L a hg]
    rcases hL : L with _ | ⟨x, xs⟩
    · subst hL
      have hn : n = 0 := by simpa using hlen
      subst hn
      rw [if_pos rfl]
      show findJsConfigFuel ix nm frm 2 "." = some (.error .notFound)
      unfold findJsConfigFuel
      rw [if_neg (by decide), resolveWithIndex_empty hix]
      show findJsConfigFuel ix nm frm 1 (pathJoin "." "..") = some (.error .notFound)
      rw [show pathJoin "." ".." = ".." from rfl]
      unfold findJsConfigFuel
      rw [if_pos rfl]
    · rw [if_neg (by simp [hL])]
      subst hL
      refine ih (x :: xs) (fun s hs => hg s (List.mem_append_left _ hs)) ?_
      have : (x :: xs).length + 1 = n + 1 := by simpa using hlen
      omega

theorem pathJoin_up_iterate :
    ∀ (n : Nat) (segs : List String), (∀ s ∈ segs, goodSeg s) → segs.length = n →
      (fun q => pathJoin q "..")^[n + 1] (joinSlash segs) = ".." := by
  intro n
  induction n with
  | zero =>
    intro segs hg hlen
    have hnil : segs = [] := List.length_eq_zero.mp hlen
    subst hnil
    show pathJoin "" ".." = ".."
    rfl
  | succ n ih =>
    intro segs hg hlen
    rcases List.eq_nil_or_concat segs with hnil | ⟨L, a, hLa⟩
    · rw [hnil] at hlen; simp at hlen
    rw [List.concat_eq_append] at hLa
    subst hLa
    rw [Function.iterate_succ_apply]
    show (fun q => pathJoin q "..")^[n + 1] (pathJoin (joinSlash (L ++ [a])) "..") = ".."
    rw [pathJoin_up L a hg]
    rcases hL : L with _ | ⟨x, xs⟩
    · subst hL
      have hn : n = 0 := by simpa using hlen
      subst hn
      rw [if_pos rfl]
      show pathJoin "." ".." = ".."
      rfl
    · rw [if_neg (by simp [hL])]
      subst hL
      refine ih (x :: xs) (fun s hs => hg s (List.mem_append_left _ hs)) ?_
      have : (x :: xs).length + 1 = n + 1 := by simpa using hlen
      omega

/-! ## Lemmas: attributes, the dependency set and sorting -/

theorem find_filter_ne (l : List (String × Attr)) (k : String) :
    (l.filter (fun p => p.1 ≠ k)).find? (fun p => p.1 = k) = none := by
  induction l with
  | nil => rfl
  | cons p l ih =>
    by_cases hp : p.1 = k
    · simp only [List.filter_cons, hp]
      rw [if_neg (by simp)]
      exact ih
    · simp only [List.filter_cons]
      rw [if_pos (by simpa using hp)]
      rw [List.find?_cons_of_neg _ (by simpa using hp)]
      exact ih

theorem find_filter_other {k k' : String} (h : k' ≠ k) (l : List (String × Attr)) :
    (l.filter (fun p => p.1 ≠ k)).find? (fun p => p.1 = k') = l.find? (fun p => p.1 = k') := by
  induction l with
  | nil => rfl
  | cons p l ih =>
    by_cases hp : p.1 = k
    · simp only [List.filter_cons, hp]
      rw [if_neg (by simp)]
      rw [List.find?_cons_of_neg _ (by simp [hp]; exact fun hh => h hh.symm)]
      exact ih
    · simp only [List.filter_cons]
      rw [if_pos (by simpa using hp)]
      by_cases hp' : p.1 = k'
      · rw [List.find?_cons_of_pos _ (by simpa using hp'),
          List.find?_cons_of_pos _ (by simpa using hp')]
      · rw [List.find?_cons_of_neg _ (by simpa using hp'),
          List.find?_cons_of_neg _ (by simpa using hp')]
        exact ih

theorem attr_delAttr_self (r : Rule) (k : String) : (r.delAttr k).attr k = none := by
  unfold Rule.delAttr Rule.attr
  simp only
  rw [find_filter_ne]
  rfl

theorem attr_delAttr_other (r : Rule) {k k' : String} (h : k' ≠ k) :
    (r.delAttr k).attr k' = r.attr k' := by
  unfold Rule.delAttr Rule.attr
  simp only
  rw [find_filter_other h]

theorem attr_setAttr_self (r : Rule) (k : String) (v : Attr) :
    (r.setAttr k v).attr k = some v := by
  unfold Rule.setAttr Rule.attr
  simp only
  rw [List.find?_append, find_filter_ne]
  simp

theorem attr_setAttr_other (r : Rule) {k k' : String} (v : Attr) (h : k' ≠ k) :
    (r.setAttr k v).attr k' = r.attr k' := by
  unfold Rule.setAttr Rule.attr
  simp only
  rw [List.find?_append, find_filter_other h]
  rw [List.find?_cons_of_neg _ (by simp; exact fun hh => h hh.symm)]
  simp

theorem insertDep_nodup {ds : List String} (d : String) (h : ds.Nodup) :
    (insertDep ds d).Nodup := by
  unfold insertDep
  by_cases hd : d ∈ ds
  · rw [if_pos hd]; exact h
  · rw [if_neg hd]
    rw [List.nodup_append]
    refine ⟨h, List.nodup_singleton d, ?_⟩
    intro a ha hamem
    have : a = d := by simpa using hamem
    exact hd (this ▸ ha)

theorem depStep_none (ix : RuleIndex) (frm : Label) (imp : String) :
    depStep ix frm none imp = none := rfl

theorem foldl_depStep_none (ix : RuleIndex) (frm : Label) :
    ∀ l : List String, List.foldl (depStep ix frm) none l = none := by
  intro l
  induction l with
  | nil => rfl
  | cons imp rest ih => rw [List.foldl_cons, depStep_none]; exact ih

theorem depStep_some_cases (ix : RuleIndex) (frm : Label) (ds0 : List String) (imp : String) :
    depStep ix frm (some ds0) imp = none ∨
    depStep ix frm (some ds0) imp = some ds0 ∨
    ∃ d, depStep ix frm (some ds0) imp = some (insertDep ds0 d) := by
  unfold depStep
  rcases h : processImport ix frm imp with _ | d | d | _ | _ | _ <;>
    simp [Option.bind, depOfAction]

theorem collectDeps_foldl_nodup (ix : RuleIndex) (frm : Label) :
    ∀ (imports : List String) (ds0 : List String), ds0.Nodup →
      ∀ ds, List.foldl (depStep ix frm) (some ds0) imports = some ds → ds.Nodup := by
  intro imports
  induction imports with
  | nil =>
    intro ds0 h0 ds hds
    rw [List.foldl_nil] at hds
    exact (Option.some.inj hds) ▸ h0
  | cons imp rest ih =>
    intro ds0 h0 ds hds
    rw [List.foldl_cons] at hds
    rcases depStep_some_cases ix frm ds0 imp with h | h | ⟨d, h⟩
    · rw [h, foldl_depStep_none] at hds
      exact absurd hds (by simp)
    · rw [h] at hds
      exact ih ds0 h0 ds hds
    · rw [h] at hds
      exact ih (insertDep ds0 d) (insertDep_nodup d h0) ds hds

theorem collectDeps_nodup {ix : RuleIndex} {frm : Label} {imports : List String}
    {ds : List String} (h : collectDeps ix frm imports = some ds) : ds.Nodup :=
  collectDeps_foldl_nodup ix frm imports [] List.nodup_nil ds h

theorem lexCharsLe_total : ∀ a b : List Char, lexCharsLe a b = true ∨ lexCharsLe b a = true := by
  intro a
  induction a with
  | nil => intro b; left; rfl
  | cons x as ih =>
    intro b
    rcases b with _ | ⟨y, bs⟩
    · right; rfl
    · rcases lt_trichotomy x y with hlt | heq | hgt
      · left; simp [lexCharsLe, hlt]
      · subst heq
        rcases ih bs with h | h
        · left; simp [lexCharsLe, h]
        · right; simp [lexCharsLe, h]
      · right; simp [lexCharsLe, hgt]

theorem lexCharsLe_trans :
    ∀ a b c : List Char, lexCharsLe a b = true → lexCharsLe b c = true → lexCharsLe a c = true := by
  intro a
  induction a with
  | nil => intro b c _ _; rfl
  | cons x as ih =>
    intro b c hab hbc
    rcases b with _ | ⟨y, bs⟩
    · exact absurd hab (by simp [lexCharsLe])
    rcases c with _ | ⟨z, cs⟩
    · exact absurd hbc (by simp [lexCharsLe])
    by_cases h1 : x < y
    · by_cases h2 : y < z
      · simp [lexCharsLe, lt_trans h1 h2]
      · by_cases h2e : y = z
        · subst h2e; simp [lexCharsLe, h1]
        · exact absurd hbc (by simp [lexCharsLe, h2, h2e])
    · by_cases h1e : x = y
      · subst h1e
        have has : lexCharsLe as bs = true := by
          simpa [lexCharsLe, h1] using hab
        by_cases h2 : x < z
        · simp [lexCharsLe, h2]
        · by_cases h2e : x = z
          · subst h2e
            have hbs : lexCharsLe bs cs = true := by
              simpa [lexCharsLe, h2] using hbc
            simp [lexCharsLe, h2, ih bs cs has hbs]
          · exact absurd hbc (by simp [lexCharsLe, h2, h2e])
      · exact absurd hab (by simp [lexCharsLe, h1, h1e])

instance : IsTotal String (fun a b => strLe a b = true) :=
  ⟨fun a b => lexCharsLe_total a.data b.data⟩

instance : IsTrans String (fun a b => strLe a b = true) :=
  ⟨fun a b c => lexCharsLe_trans a.data b.data c.data⟩

theorem sortStrings_sorted (l : List String) :
    List.Sorted (fun a b => strLe a b = true) (sortStrings l) :=
  List.sorted_insertionSort _ l

theorem sortStrings_perm (l : List String) : (sortStrings l).Perm l :=
  List.perm_insertionSort _ l

theorem sortStrings_nodup {l : List String} (h : l.Nodup) : (sortStrings l).Nodup :=
  (sortStrings_perm l).nodup_iff.mpr h

/-! ## Concrete scenario material shared by witnesses -/

/-- An index with no entries at all. -/
def emptyIndex : RuleIndex := fun _ _ => []

/-- A generic origin label in package `p`. -/
def originP : Label := ⟨"", "p", "x", false⟩

/-- An index entry that is not a self-import. -/
def entB : IndexEntry := ⟨⟨"", "q", "y", false⟩, fun _ => false⟩

/-- An index resolving exactly the import `"a"` to `entB`. -/
def oneMatchIndex : RuleIndex := fun spec _ => if spec.imp = "a" then [entB] else []

/-- An index entry that reports itself as a self-import of any origin. -/
def selfEntry : IndexEntry := ⟨⟨"", "p", "b", false⟩, fun _ => true⟩

/-- An index resolving exactly the import `"p/b"` to `selfEntry`. -/
def selfIndex : RuleIndex := fun spec _ => if spec.imp = "p/b" then [selfEntry] else []

/-! ## Claim C3 -/

/-- C3: for every canonical import and origin, `resolveWithIndex` returns
the unique match's label when the index yields exactly one non-self match,
`notFound` on zero matches, the ambiguity error on two or more matches, and
the skip (self-reference) outcome when the unique match is the origin
itself. -/
theorem C3_resolve_cases (ix : RuleIndex) (imp : String) (frm : Label) :
    (findRulesByImport ix ⟨"js", imp⟩ "js" = [] →
      resolveWithIndex ix imp frm = .error .notFound) ∧
    (∀ m, findRulesByImport ix ⟨"js", imp⟩ "js" = [m] →
      (m.isSelfImport frm = false → resolveWithIndex ix imp frm = .ok m.label) ∧
      (m.isSelfImport frm = true → resolveWithIndex ix imp frm = .error .skipImport)) ∧
    (∀ m1 m2 rest, findRulesByImport ix ⟨"js", imp⟩ "js" = m1 :: m2 :: rest →
      resolveWithIndex ix imp frm = .error (.ambiguous m1.label m2.label imp frm)) := by
  refine ⟨?_, ?_, ?_⟩
  · intro h
    unfold resolveWithIndex
    rw [h]
  · intro m h
    constructor
    · intro hself
      unfold resolveWithIndex
      rw [h]
      simp [hself]
    · intro hself
      unfold resolveWithIndex
      rw [h]
      simp [hself]
  · intro m1 m2 rest h
    unfold resolveWithIndex
    rw [h]

/-- Witness for C3 at a one-entry index. -/
theorem C3_witness :
    resolveWithIndex oneMatchIndex "a" originP = .ok entB.label ∧
    resolveWithIndex oneMatchIndex "zzz" originP = .error .notFound ∧
    resolveWithIndex selfIndex "p/b" originP = .error .skipImport := by
  refine ⟨?_, ?_, ?_⟩
  · exact ((C3_resolve_cases oneMatchIndex "a" originP).2.1 entB rfl).1 rfl
  · exact (C3_resolve_cases oneMatchIndex "zzz" originP).1 rfl
  · exact ((C3_resolve_cases selfIndex "p/b" originP).2.1 selfEntry rfl).2 rfl

/-! ## Claim C5 -/

/-- C5: an import is path-like (never external) exactly when it begins with
`./`, `/`, `../`, `~/`, `@/` or `~~/`; for any other import the derived
package name is the first slash-separated segment, or the first two joined
by a slash when the first begins with `@`, and the dependency identifier is
that name behind the `@npm//` marker. -/
theorem C5_npm_classifier (imp : String) :
    (isNpmDependency imp = false ↔
      (goHasPre imp "./" = true ∨ goHasPre imp "/" = true ∨ goHasPre imp "../" = true ∨
       goHasPre imp "~/" = true ∨ goHasPre imp "@/" = true ∨ goHasPre imp "~~/" = true)) ∧
    (∀ s0 rest, isNpmDependency imp = true → goSplitSlash imp = s0 :: rest →
      (goHasPre s0 "@" = false → npmDep imp = some ("@npm//" ++ s0)) ∧
      (∀ s1 rest2, goHasPre s0 "@" = true → rest = s1 :: rest2 →
        npmDep imp = some ("@npm//" ++ (s0 ++ "/" ++ s1)))) := by
  constructor
  · unfold isNpmDependency
    simp only [Bool.not_eq_false', Bool.or_eq_true]
    tauto
  · intro s0 rest _ hsplit
    constructor
    · intro h0
      simp [npmDep, npmName, hsplit, h0]
    · intro s1 rest2 h1 hrest
      simp [npmDep, npmName, hsplit, h1, hrest]

/-- Witness for C5 at the spec's own examples. -/
theorem C5_witness :
    npmDep "@scope/pkg/sub" = some "@npm//@scope/pkg" ∧
    npmDep "lodash" = some "@npm//lodash" ∧
    isNpmDependency "./local" = false := by
  refine ⟨?_, ?_, ?_⟩
  · exact ((C5_npm_classifier "@scope/pkg/sub").2 "@scope" ["pkg", "sub"] (by decide)
      (by decide)).2 "pkg" ["sub"] (by decide) rfl
  · exact ((C5_npm_classifier "lodash").2 "lodash" [] (by decide) (by decide)).1 (by decide)
  · exact (C5_npm_classifier "./local").1.mpr (Or.inl (by decide))

/-! ## Claim C6 -/

/-- C6: `normaliseImports` applies the first matching prefix rule in the
order `@/`, `~~/`, `~/`, `../`, `./`: `@/` and `~~/` are stripped, `../`
and `./` imports are joined onto the origin package path, and an import
matching none of the prefixes is returned unchanged. -/
theorem C6_normalise_rules (imp : String) (ix : RuleIndex) (frm : Label) :
    (goHasPre imp "@/" = true → normaliseImports imp ix frm = goDrop imp 2) ∧
    (goHasPre imp "@/" = false → goHasPre imp "~~/" = true →
      normaliseImports imp ix frm = goDrop imp 3) ∧
    (goHasPre imp "@/" = false → goHasPre imp "~~/" = false → goHasPre imp "~/" = false →
      (goHasPre imp "../" = true ∨ goHasPre imp "./" = true) →
      normaliseImports imp ix frm = pathJoin frm.pkg imp) ∧
    (goHasPre imp "@/" = false → goHasPre imp "~~/" = false → goHasPre imp "~/" = false →
      goHasPre imp "../" = false → goHasPre imp "./" = false →
      normaliseImports imp ix frm = imp) := by
  refine ⟨?_, ?_, ?_, ?_⟩
  · intro h1
    simp [normaliseImports, h1]
  · intro h1 h2
    simp [normaliseImports, h1, h2]
  · intro h1 h2 h3 h45
    by_cases h4 : goHasPre imp "../" = true
    · simp [normaliseImports, h1, h2, h3, h4]
    · have h4f : goHasPre imp "../" = false := by
        rcases hb : goHasPre imp "../" with _ | _
        · rfl
        · exact absurd hb h4
      rcases h45 with h | h
      · exact absurd h h4
      · simp [normaliseImports, h1, h2, h3, h4f, h]
  · intro h1 h2 h3 h4 h5
    simp [normaliseImports, h1, h2, h3, h4, h5]

/-- Witness for C6 at one input per rule. -/
theorem C6_witness :
    normaliseImports "@/x/y" emptyIndex originP = goDrop "@/x/y" 2 ∧
    normaliseImports "~~/x" emptyIndex originP = goDrop "~~/x" 3 ∧
    normaliseImports "./x" emptyIndex originP = pathJoin originP.pkg "./x" ∧
    normaliseImports "../x" emptyIndex originP = pathJoin originP.pkg "../x" ∧
    normaliseImports "lodash" emptyIndex originP = "lodash" := by
  refine ⟨?_, ?_, ?_, ?_, ?_⟩
  · exact (C6_normalise_rules "@/x/y" emptyIndex originP).1 (by decide)
  · exact (C6_normalise_rules "~~/x" emptyIndex originP).2.1 (by decide) (by decide)
  · exact (C6_normalise_rules "./x" emptyIndex originP).2.2.1 (by decide) (by decide) (by decide)
      (Or.inr (by decide))
  · exact (C6_normalise_rules "../x" emptyIndex originP).2.2.1 (by decide) (by decide) (by decide)
      (Or.inl (by decide))
  · exact (C6_normalise_rules "lodash" emptyIndex originP).2.2.2 (by decide) (by decide)
      (by decide) (by decide) (by decide)

/-! ## Claim C9 -/

/-- An ASCII uppercase letter. -/
def isUpperAscii (c : Char) : Bool :=
  decide (65 ≤ c.toNat ∧ c.toNat ≤ 90)

/-- Whether a string contains an ASCII uppercase letter. -/
def hasUpperAscii (s : String) : Bool :=
  s.data.any isUpperAscii

theorem toNat_ofNatAux (n : Nat) (h : n.isValidChar) : (Char.ofNatAux n h).toNat = n := rfl

theorem isUpperAscii_goCharToLower (c : Char) : isUpperAscii (goCharToLower c) = false := by
  unfold goCharToLower
  by_cases h : 65 ≤ c.toNat ∧ c.toNat ≤ 90
  · rw [dif_pos h]
    unfold isUpperAscii
    rw [toNat_ofNatAux, decide_eq_false_iff_not]
    omega
  · rw [dif_neg h]
    unfold isUpperAscii
    rw [decide_eq_false_iff_not]
    exact h

theorem hasUpperAscii_goToLower (s : String) : hasUpperAscii (goToLower s) = false := by
  unfold hasUpperAscii goToLower
  simp only [List.any_map, List.any_eq_false, Function.comp_apply]
  intro c _
  simp [isUpperAscii_goCharToLower]

/-- C9: every index key produced by `Imports` is lower-cased, so a
canonical import containing an ASCII uppercase letter never equals such a
key, and resolution of such an import against an index populated only with
`Imports` keys takes the not-found path. -/
theorem C9_uppercase_never_found :
    (∀ (pkg : String) (srcs : List String), ∀ spec ∈ Imports pkg srcs,
      hasUpperAscii spec.imp = false) ∧
    (∀ (pkg : String) (srcs : List String) (imp : String) (spec : ImportSpec),
      hasUpperAscii imp = true → spec ∈ Imports pkg srcs → spec.imp ≠ imp) ∧
    (∀ (ix : RuleIndex) (frm : Label) (imp : String),
      (∀ spec lang, hasUpperAscii spec.imp = true → ix spec lang = []) →
      hasUpperAscii imp = true → resolveWithIndex ix imp frm = .error .notFound) := by
  have hkey : ∀ (pkg : String) (srcs : List String), ∀ spec ∈ Imports pkg srcs,
      hasUpperAscii spec.imp = false := by
    intro pkg srcs spec hspec
    unfold Imports at hspec
    rcases List.mem_map.mp hspec with ⟨src, _, heq⟩
    rw [← heq]
    exact hasUpperAscii_goToLower _
  refine ⟨hkey, ?_, ?_⟩
  · intro pkg srcs imp spec himp hspec heq
    have := hkey pkg srcs spec hspec
    rw [heq, himp] at this
    exact absurd this (by simp)
  · intro ix frm imp hix himp
    unfold resolveWithIndex findRulesByImport
    rw [hix ⟨"js", imp⟩ "js" himp]

/-- Witness for C9 at the import `"Foo"` against the empty index. -/
theorem C9_witness : resolveWithIndex emptyIndex "Foo" originP = .error .notFound :=
  C9_uppercase_never_found.2.2 emptyIndex originP "Foo" (fun _ _ _ => rfl) (by decide)

/-! ## Claim C10 -/

/-- C10: a self-reference (Skipped) resolution makes `Resolve` drop that
entry with no diagnostic, contribute nothing to the dependency set and
never consult the external-package classifier; the classifier runs only on
the not-found outcome. -/
theorem C10_skip_silent :
    (∀ (ix : RuleIndex) (frm : Label) (imp : String),
      resolveWithIndex ix (normaliseImports imp ix frm) frm = .error .skipImport →
      processImport ix frm imp = .skipped ∧
      depOfAction (processImport ix frm imp) = none ∧
      emitsDiagnostic (processImport ix frm imp) = false ∧
      classifierConsulted (processImport ix frm imp) = false ∧
      (∀ imports : List String,
        collectDeps ix frm (imports ++ [imp]) = collectDeps ix frm imports)) ∧
    (∀ (ix : RuleIndex) (frm : Label) (imp : String),
      classifierConsulted (processImport ix frm imp) = true →
      resolveWithIndex ix (normaliseImports imp ix frm) frm = .error .notFound) := by
  constructor
  · intro ix frm imp h
    have hp : processImport ix frm imp = .skipped := by
      simp only [processImport]
      rw [h]
    refine ⟨hp, by rw [hp]; rfl, by rw [hp]; rfl, by rw [hp]; rfl, ?_⟩
    intro imports
    unfold collectDeps
    rw [List.foldl_append]
    rcases List.foldl (depStep ix frm) (some []) imports with _ | ds
    · rfl
    · simp [depStep, hp, depOfAction]
  · intro ix frm imp h
    simp only [processImport] at h
    rcases hr : resolveWithIndex ix (normaliseImports imp ix frm) frm with e | l
    · rcases e with _ | _ | ⟨l1, l2, i, f⟩
      · rw [hr] at h
        simp [classifierConsulted] at h
      · rfl
      · rw [hr] at h
        simp [classifierConsulted] at h
    · rw [hr] at h
      simp [classifierConsulted] at h

/-- Witness for C10 at a self-import index entry. -/
theorem C10_witness :
    processImport selfIndex originP "./b" = .skipped ∧
    collectDeps selfIndex originP (["x"] ++ ["./b"]) = collectDeps selfIndex originP ["x"] ∧
    resolveWithIndex emptyIndex (normaliseImports "lodash" emptyIndex originP) originP =
      .error .notFound := by
  have h := C10_skip_silent.1 selfIndex originP "./b" rfl
  exact ⟨h.1, h.2.2.2.2 ["x"], C10_skip_silent.2 emptyIndex originP "lodash" rfl⟩

/-! ## Claim C7 -/

/-- C7: when resolution of a normalised import is `notFound` and the import
begins with `@` but not `@/` and has no slash, the split inside the
npm-name derivation has exactly one element, the `s[1]` access is out of
range (modelled as `none`), and `Resolve` is not total there (the panic is
modelled as `none`); hence totality requires every non-path-like `@` import
to contain a slash. -/
theorem C7_npm_name_panics (ix : RuleIndex) (frm : Label) (r : Rule) (imp : String)
    (hres : resolveWithIndex ix (normaliseImports imp ix frm) frm = .error .notFound)
    (hat : goHasPre (normaliseImports imp ix frm) "@" = true)
    (hatroot : goHasPre (normaliseImports imp ix frm) "@/" = false)
    (hslash : '/' ∉ (normaliseImports imp ix frm).data) :
    (goSplitSlash (normaliseImports imp ix frm)).length = 1 ∧
    npmName (normaliseImports imp ix frm) = none ∧
    processImport ix frm imp = .panicked ∧
    Resolve ix r [imp] frm = none := by
  have hsplit : goSplitSlash (normaliseImports imp ix frm) = [normaliseImports imp ix frm] :=
    goSplitSlash_no_sep hslash
  have hat' : goHasPre (normaliseImports imp ix frm) ⟨['@']⟩ = true := hat
  obtain ⟨t, hd⟩ := goHasPre_head hat'
  have hname : npmName (normaliseImports imp ix frm) = none := by
    simp [npmName, hsplit, hat]
  have hnpm : isNpmDependency (normaliseImports imp ix frm) = true := by
    have h1 : goHasPre (normaliseImports imp ix frm) "./" = false :=
      @goHasPre_false_of_head _ _ '.' _ ['/'] hd (by decide)
    have h2 : goHasPre (normaliseImports imp ix frm) "/" = false :=
      @goHasPre_false_of_head _ _ '/' _ [] hd (by decide)
    have h3 : goHasPre (normaliseImports imp ix frm) "../" = false :=
      @goHasPre_false_of_head _ _ '.' _ ['.', '/'] hd (by decide)
    have h4 : goHasPre (normaliseImports imp ix frm) "~/" = false :=
      @goHasPre_false_of_head _ _ '~' _ ['/'] hd (by decide)
    have h6 : goHasPre (normaliseImports imp ix frm) "~~/" = false :=
      @goHasPre_false_of_head _ _ '~' _ ['~', '/'] hd (by decide)
    unfold isNpmDependency
    rw [h1, h2, h3, h4, hatroot, h6]
    rfl
  have hproc : processImport ix frm imp = .panicked := by
    simp only [processImport]
    rw [hres, hnpm]
    simp [npmDep, hname]
  refine ⟨by rw [hsplit]; rfl, hname, hproc, ?_⟩
  unfold Resolve collectDeps
  simp [depStep, hproc]

/-- Witness for C7 at the import `"@foo"` against the empty index. -/
theorem C7_witness :
    (goSplitSlash (normaliseImports "@foo" emptyIndex originP)).length = 1 ∧
    npmName (normaliseImports "@foo" emptyIndex originP) = none ∧
    processImport emptyIndex originP "@foo" = .panicked ∧
    Resolve emptyIndex (Rule.new "js_library" "x") ["@foo"] originP = none :=
  C7_npm_name_panics emptyIndex originP (Rule.new "js_library" "x") "@foo"
    rfl (by decide) (by decide) (by decide)

/-! ## Claim C4 -/

theorem setDeps_empty (r1 : Rule) : setDeps r1 [] = r1 := by
  simp [setDeps]

theorem setDeps_nonempty (r1 : Rule) {depList : List String} (h : depList ≠ []) :
    setDeps r1 depList = r1.setAttr "deps" (.strList (sortStrings depList)) := by
  unfold setDeps
  rw [if_pos (by simpa [List.length_pos] using h)]

theorem attr_setJestConfig_deps (ix : RuleIndex) (frm : Label) (r2 : Rule) :
    (setJestConfig ix frm r2).attr "deps" = r2.attr "deps" := by
  unfold setJestConfig
  by_cases hk : r2.kind = "jest_node_test"
  · rw [if_pos hk]
    rcases findJsConfig "jest" ix frm with e | l
    · rfl
    · exact attr_setAttr_other r2 _ (by decide)
  · rw [if_neg hk]

/-- C4: for any raw import list, in any order and with any duplicates, a
successful `Resolve` leaves `deps` as a duplicate-free list sorted
ascending in the byte-lexicographic order, and omits the `deps` attribute
entirely when the accumulated dependency set is empty. -/
theorem C4_deps_sorted_unique (ix : RuleIndex) (frm : Label) (r : Rule)
    (imports : List String) (r' : Rule) (h : Resolve ix r imports frm = some r') :
    ∃ ds, collectDeps ix frm imports = some ds ∧ ds.Nodup ∧
      (ds = [] → r'.attr "deps" = none) ∧
      (ds ≠ [] → r'.attr "deps" = some (.strList (sortStrings ds)) ∧
        List.Sorted (fun a b => strLe a b = true) (sortStrings ds) ∧
        (sortStrings ds).Nodup) := by
  rcases hc : collectDeps ix frm imports with _ | ds
  · rw [Resolve.eq_def, hc] at h
    exact absurd h (by simp)
  · rw [Resolve.eq_def, hc] at h
    have hr' : setJestConfig ix frm (setDeps (r.delAttr "deps") ds) = r' := Option.some.inj h
    subst hr'
    refine ⟨ds, rfl, collectDeps_nodup hc, ?_, ?_⟩
    · rintro rfl
      rw [attr_setJestConfig_deps, setDeps_empty]
      exact attr_delAttr_self r "deps"
    · intro hne
      rw [attr_setJestConfig_deps, setDeps_nonempty _ hne, attr_setAttr_self]
      exact ⟨rfl, sortStrings_sorted ds, sortStrings_nodup (collectDeps_nodup hc)⟩

/-- Witness for C4 at the duplicated, unsorted import list
`["b", "a", "b"]` against the empty index (both resolve to npm
dependencies). -/
theorem C4_witness :
    collectDeps emptyIndex originP ["b", "a", "b"] = some ["@npm//b", "@npm//a"] ∧
    (["@npm//b", "@npm//a"] : List String).Nodup ∧
    (Rule.mk "js_library" "x" [("deps", .strList ["@npm//a", "@npm//b"])]).attr "deps" =
      some (.strList (sortStrings ["@npm//b", "@npm//a"])) ∧
    List.Sorted (fun a b => strLe a b = true) (sortStrings ["@npm//b", "@npm//a"]) ∧
    (sortStrings ["@npm//b", "@npm//a"]).Nodup := by
  obtain ⟨ds, hds, hnd, hemp, hne⟩ := C4_deps_sorted_unique emptyIndex originP
    (Rule.new "js_library" "x") ["b", "a", "b"]
    (Rule.mk "js_library" "x" [("deps", .strList ["@npm//a", "@npm//b"])]) rfl
  have hds' : ds = ["@npm//b", "@npm//a"] := Option.some.inj (by rw [← hds]; rfl)
  subst hds'
  obtain ⟨h1, h2, h3⟩ := hne (by decide)
  exact ⟨hds, hnd, h1, h2, h3⟩

/-! ## Claim C8 -/

/-- C8: for every clean repository-relative origin package (no empty, `.`
or `..` segments), the upward config search terminates — repeated
parent-joining reaches the `".."` sentinel after finitely many steps — and
reaching it without a resolved match yields the not-found outcome, the
caller then proceeding without the optional `config` attribute. -/
theorem C8_config_search_terminates (ix : RuleIndex) (frm : Label) (configName : String)
    (hix : ∀ s l, ix s l = []) (hpkg : goodPkg frm.pkg = true) :
    findJsConfigFuel ix configName frm (configSearchFuel frm.pkg) frm.pkg =
      some (.error .notFound) ∧
    findJsConfig configName ix frm = .error .notFound ∧
    (fun q => pathJoin q "..")^[(goSplitSlash frm.pkg).length + 1] frm.pkg = ".." ∧
    (∀ r : Rule, Resolve ix r [] frm = some (r.delAttr "deps")) := by
  have hgood := goodPkg_goodSeg hpkg
  have hinv : joinSlash (goSplitSlash frm.pkg) = frm.pkg := joinSlash_goSplitSlash frm.pkg
  have hfuel : ∀ nm : String,
      findJsConfigFuel ix nm frm (configSearchFuel frm.pkg) frm.pkg =
        some (.error .notFound) := by
    intro nm
    have h := findJsConfigFuel_notFound hix nm frm (goSplitSlash frm.pkg).length
      (goSplitSlash frm.pkg) hgood rfl
    rw [hinv] at h
    exact h
  have hfind : ∀ nm : String, findJsConfig nm ix frm = .error .notFound := by
    intro nm
    unfold findJsConfig
    rw [hfuel nm]
  have hiter : (fun q => pathJoin q "..")^[(goSplitSlash frm.pkg).length + 1] frm.pkg = ".." := by
    have h := pathJoin_up_iterate (goSplitSlash frm.pkg).length (goSplitSlash frm.pkg) hgood rfl
    rw [hinv] at h
    exact h
  refine ⟨hfuel configName, hfind configName, hiter, ?_⟩
  intro r
  show some (setJestConfig ix frm (setDeps (r.delAttr "deps") [])) = some (r.delAttr "deps")
  rw [setDeps_empty]
  unfold setJestConfig
  by_cases hk : (r.delAttr "deps").kind = "jest_node_test"
  · rw [if_pos hk, hfind "jest"]
  · rw [if_neg hk]

/-- Witness for C8 at the three-segment package `a/b/c` against the empty
index. -/
theorem C8_witness :
    findJsConfigFuel emptyIndex "jest" ⟨"", "a/b/c", "t", false⟩
      (configSearchFuel "a/b/c") "a/b/c" = some (.error .notFound) ∧
    findJsConfig "jest" emptyIndex ⟨"", "a/b/c", "t", false⟩ = .error .notFound ∧
    (fun q => pathJoin q "..")^[(goSplitSlash "a/b/c").length + 1] "a/b/c" = ".." ∧
    Resolve emptyIndex (Rule.new "jest_node_test" "t") [] ⟨"", "a/b/c", "t", false⟩ =
      some ((Rule.new "jest_node_test" "t").delAttr "deps") := by
  have h := C8_config_search_terminates emptyIndex ⟨"", "a/b/c", "t", false⟩ "jest"
    (fun _ _ => rfl) (by decide)
  exact ⟨h.1, h.2.1, h.2.2.1, h.2.2.2 (Rule.new "jest_node_test" "t")⟩

/-! ## Claim C1 -/

/-- The label of a `jest.config` target declared at the repository root. -/
def jestCfgLabel : Label := ⟨"", "", "jest.config", false⟩

/-- An index resolving exactly the root import `"jest.config"`. -/
def jestCfgIndex : RuleIndex :=
  fun spec _ => if spec.imp = "jest.config" then [⟨jestCfgLabel, fun _ => false⟩] else []

/-- A test target three package levels below the config. -/
def jestOrigin : Label := ⟨"", "a/b/c", "t", false⟩

/-- C1 (code bug): the Target Classifier emits kind `"jest_test"` for test
files, and the Config Locator does find the `jest.config` three levels up,
yet `Resolve` leaves the `config` attribute unset on a `"jest_test"` rule —
its kind test compares against `"jest_node_test"`, a kind this extension
never generates or declares, as the fourth conjunct shows. -/
theorem C1_jest_config_never_set :
    ((generateRules ⟨[], true, "js_library"⟩ (fun _ => [])
        ⟨"a/b/c", ["t.test.js"], [], none⟩).gen.map Rule.kind = ["jest_test"]) ∧
    findJsConfig "jest" jestCfgIndex jestOrigin = .ok jestCfgLabel ∧
    ((Resolve jestCfgIndex ((Rule.new "jest_test" "t").setAttr "srcs" (.strList ["t.test.js"]))
        [] jestOrigin).map (fun r => r.attr "config") = some none) ∧
    ((Resolve jestCfgIndex (Rule.new "jest_node_test" "t") [] jestOrigin).map
        (fun r => r.attr "config") = some (some (.str "//:jest.config"))) :=
  ⟨rfl, rfl, rfl, rfl⟩

/-! ## Claim C2 -/

/-- A build file declaring a `ts_project` whose single source is gone and a
`jest_test` whose single source is gone. -/
def staleFile : RuleFile :=
  ⟨[⟨"ts_project", "old", [("srcs", .strList ["old.ts"])]⟩,
    ⟨"jest_test", "oldt", [("srcs", .strList ["gone.test.js"])]⟩]⟩

/-- Directory state: the only file present is `new.ts`. -/
def staleArgs : GenerateArgs := ⟨"pkg", ["new.ts"], [], some staleFile⟩

/-- The configuration used in the concrete generation scenarios. -/
def plainCfg : JsConfig := ⟨[], true, "js_library"⟩

/-- C2 (code bug): the classifier emits kind `"ts_project"` for `.ts`
files, and the stale `jest_test` rule is flagged, but the stale
`"ts_project"` rule is not — `generateEmpty` is called with the kind set
`{JsLibrary, "jest_test", "ts_library"}`, and `"ts_library"` is a kind this
extension never generates. -/
theorem C2_stale_ts_project_not_flagged :
    ((generateRules plainCfg (fun _ => []) staleArgs).gen.map Rule.kind = ["ts_project"]) ∧
    ((generateRules plainCfg (fun _ => []) staleArgs).empty = [Rule.new "jest_test" "oldt"]) ∧
    (Rule.new "ts_project" "old" ∉ (generateRules plainCfg (fun _ => []) staleArgs).empty) ∧
    ((staleFile.rules.map Rule.kind).contains "ts_project" = true) ∧
    (generateEmpty (some staleFile) ["new.ts"] ["js_library", "jest_test", "ts_project"] =
      [Rule.new "ts_project" "old", Rule.new "jest_test" "oldt"]) := by
  refine ⟨rfl, rfl, by decide, rfl, rfl⟩
